import Mathlib

/-!
Shallow embedding of the expense-sharing application (`src/expense_app.cpp`)
and proofs of its specified properties.

Monetary `double` values are modelled as exact rationals (`ℚ`); user and
expense identities (C++ `int`) as `Int`; the `std::map<int,double>` used by
the balance computation as an association list with unique keys, where
`mapAdd` mirrors `balance[k] += v` (default-insert 0, then add) and `mapGet`
reads an entry, absent entries counting as zero.  Mutation of the
`ExpenseManager` object is modelled by explicit state passing: each
operation takes a `ManagerState` and returns a result together with the
successor state.  A `return false` exit of the C++ code carries the error
that the corresponding diagnostic message reports.
-/

namespace ExpenseApp

/-- The three split methods (`enum class SplitMethod`). -/
inductive SplitMethod where
  | EQUAL
  | EXACT
  | PERCENTAGE
deriving DecidableEq, Repr

/-- A registered user (`class User`). -/
structure User where
  id : Int
  name : String
  email : String
  phone : String
  password : String
deriving DecidableEq, Repr

/-- One participant's share of an expense (`class ExpenseParticipant`). -/
structure ExpenseParticipant where
  userId : Int
  share : ℚ
deriving DecidableEq, Repr

/-- A recorded expense (`class Expense`). -/
structure Expense where
  id : Int
  description : String
  amount : ℚ
  splitMethod : SplitMethod
  createdBy : Int
  createdAt : String
  participants : List ExpenseParticipant
deriving DecidableEq, Repr

/-- The mutable state of `class ExpenseManager`: the user registry, the
expense ledger, the logged-in user (by id) and the two id counters. -/
structure ManagerState where
  users : List User
  expenses : List Expense
  currentUser : Option Int
  nextUserId : Int
  nextExpenseId : Int
deriving DecidableEq, Repr

/-- `Utils::isValidEmail`: the email must contain an `@` and a `.`. -/
def isValidEmail (email : String) : Bool :=
  email.data.any (fun c => c == '@') && email.data.any (fun c => c == '.')

/-- `Utils::isValidPhone`: at least 10 characters, all of them digits
(an empty string is already shorter than 10). -/
def isValidPhone (phone : String) : Bool :=
  decide (10 ≤ phone.length) && phone.data.all Char.isDigit

/-- Errors of `ExpenseManager::registerUser`, one per `return false` exit. -/
inductive RegError where
  | InvalidEmail
  | InvalidPhone
  | DuplicateEmail
deriving DecidableEq, Repr

/-- `ExpenseManager::registerUser`: validate email, then phone, then reject a
duplicate email (case-sensitive exact comparison); on success append the new
user with id `nextUserId` and increment the counter. -/
def registerUser (st : ManagerState) (name email phone password : String) :
    Option RegError × ManagerState :=
  if !isValidEmail email then (some .InvalidEmail, st)
  else if !isValidPhone phone then (some .InvalidPhone, st)
  else if st.users.any (fun u => u.email == email) then (some .DuplicateEmail, st)
  else
    (none,
      { st with
        users := st.users ++ [⟨st.nextUserId, name, email, phone, password⟩],
        nextUserId := st.nextUserId + 1 })

/-- The linear existence scan over the user registry used by `addExpense`. -/
def userExists (users : List User) (id : Int) : Bool :=
  users.any (fun u => u.id == id)

/-- The "ensure creator is in participants" step of `addExpense`: append the
creator's id when absent, leave the list untouched (no de-duplication)
otherwise. -/
def includeCreator (participantIds : List Int) (creatorId : Int) : List Int :=
  if creatorId ∈ participantIds then participantIds
  else participantIds ++ [creatorId]

/-- The participant-validation loop of `addExpense`: the first id with no
matching user, if any. -/
def firstUnknown (users : List User) (ids : List Int) : Option Int :=
  ids.find? (fun id => !userExists users id)

/-- Errors of `ExpenseManager::addExpense`, one per `return false` exit. -/
inductive AddError where
  | NotLoggedIn
  | InvalidAmount
  | UnknownParticipant (id : Int)
  | ShareCountMismatch
  | ShareSumMismatch
  | PercentageSumMismatch
deriving DecidableEq, Repr

/-- The EQUAL branch: every participant's share is `amount / size`. -/
def equalShares (amount : ℚ) (pids : List Int) : List ExpenseParticipant :=
  pids.map (fun uid => ⟨uid, amount / (pids.length : ℚ)⟩)

/-- The EXACT branch's share list: each participant's share is the
positionally corresponding weight, verbatim. -/
def exactShares (pids : List Int) (weights : List ℚ) : List ExpenseParticipant :=
  (pids.zip weights).map (fun pr => ⟨pr.1, pr.2⟩)

/-- The PERCENTAGE branch's share list: each participant's share is
`amount * (weight / 100)`. -/
def percentageShares (amount : ℚ) (pids : List Int) (weights : List ℚ) :
    List ExpenseParticipant :=
  (pids.zip weights).map (fun pr => ⟨pr.1, amount * (pr.2 / 100)⟩)

/-- The split-calculation part of `addExpense`: given the (creator-inclusive)
participant list and the raw weights, produce the share list or the
validation error of the corresponding branch.  EXACT and PERCENTAGE first
compare list lengths, then check the weight sum against the amount
(resp. 100) with strict `> 0.01` tolerance. -/
def splitShares (amount : ℚ) (method : SplitMethod) (pids : List Int)
    (weights : List ℚ) : Except AddError (List ExpenseParticipant) :=
  match method with
  | .EQUAL => .ok (equalShares amount pids)
  | .EXACT =>
      if weights.length ≠ pids.length then .error .ShareCountMismatch
      else if |weights.sum - amount| > 1 / 100 then .error .ShareSumMismatch
      else .ok (exactShares pids weights)
  | .PERCENTAGE =>
      if weights.length ≠ pids.length then .error .ShareCountMismatch
      else if |weights.sum - 100| > 1 / 100 then .error .PercentageSumMismatch
      else .ok (percentageShares amount pids weights)

/-- `ExpenseManager::addExpense`.  Guards in source order: logged-in check,
`amount <= 0`, creator inclusion, participant existence.  The expense id
counter is incremented as soon as the `Expense` object is constructed —
before the split validation — so a share-validation failure still consumes
an id.  On success the expense is appended to the ledger. -/
def addExpense (st : ManagerState) (description : String) (amount : ℚ)
    (method : SplitMethod) (participantIds : List Int) (shares : List ℚ)
    (now : String) : Option AddError × ManagerState :=
  match st.currentUser with
  | none => (some .NotLoggedIn, st)
  | some cu =>
      if amount ≤ 0 then (some .InvalidAmount, st)
      else
        let pids := includeCreator participantIds cu
        match firstUnknown st.users pids with
        | some badId => (some (.UnknownParticipant badId), st)
        | none =>
            let st1 := { st with nextExpenseId := st.nextExpenseId + 1 }
            match splitShares amount method pids shares with
            | .error e => (some e, st1)
            | .ok ps =>
                let exp : Expense :=
                  ⟨st.nextExpenseId, description, amount, method, cu, now, ps⟩
                (none, { st1 with expenses := st.expenses ++ [exp] })

/-- `balance[k] += v` on a `std::map<int,double>`, read as a key-value store:
update the entry for `k` (entries start at 0) or create it. -/
def mapAdd (m : List (Int × ℚ)) (k : Int) (v : ℚ) : List (Int × ℚ) :=
  match m with
  | [] => [(k, v)]
  | (k', v') :: rest =>
      if k = k' then (k', v' + v) :: rest
      else (k', v') :: mapAdd rest k v

/-- Reading an entry of the balance map; an absent entry counts as zero. -/
def mapGet (m : List (Int × ℚ)) (q : Int) : ℚ :=
  match m with
  | [] => 0
  | (k, v) :: rest => if q = k then v else mapGet rest q

/-- One iteration of the inner loop of `displayBalance`: the effect of a
single participant share on the balance map of `focal`, where `payer` is the
expense's creator. -/
def balanceStep (focal payer : Int) (m : List (Int × ℚ))
    (p : ExpenseParticipant) : List (Int × ℚ) :=
  if payer = focal ∧ p.userId ≠ focal then mapAdd m p.userId p.share
  else if p.userId = focal ∧ payer ≠ focal then mapAdd m payer (-p.share)
  else m

/-- The effect of one expense on the balance map (outer loop body of
`displayBalance`). -/
def balanceExpense (focal : Int) (m : List (Int × ℚ)) (e : Expense) :
    List (Int × ℚ) :=
  e.participants.foldl (balanceStep focal e.createdBy) m

/-- The balance computation of `ExpenseManager::displayBalance`: fold every
expense of the ledger into an initially empty map. -/
def computeBalance (expenses : List Expense) (focal : Int) : List (Int × ℚ) :=
  expenses.foldl (balanceExpense focal) []

/-- Modelled from the spec (Balance Engine algorithm, for comparison with
`computeBalance`): the signed contribution of one participant share to the
entry of `counterparty` in the focal user's balance. -/
def shareContribution (focal counterparty payer : Int)
    (p : ExpenseParticipant) : ℚ :=
  if payer = focal ∧ p.userId ≠ focal ∧ p.userId = counterparty then p.share
  else if p.userId = focal ∧ payer ≠ focal ∧ payer = counterparty then -p.share
  else 0

/-- Modelled from the spec (Balance Engine algorithm): the entry of
`counterparty` in the focal user's balance is the sum, over all expenses and
all their participant shares, of the per-share contributions. -/
def specBalance (expenses : List Expense) (focal counterparty : Int) : ℚ :=
  (expenses.map (fun e =>
    (e.participants.map (shareContribution focal counterparty e.createdBy)).sum)).sum

/-- A three-user registry entry used by the concrete scenarios. -/
def demoUser (i : Int) (nm : String) : User :=
  ⟨i, nm, nm ++ "@x.com", "0123456789", "pw"⟩

/-- A manager state with users 1, 2, 3, user 1 logged in and an empty
ledger. -/
def demoState : ManagerState :=
  { users := [demoUser 1 "a", demoUser 2 "b", demoUser 3 "c"],
    expenses := [], currentUser := some 1, nextUserId := 4, nextExpenseId := 1 }

/-- The ledger of the spec's balance scenario: user 1 pays 90, split EQUAL
among users 1, 2 and 3. -/
def demoLedger : List Expense :=
  (addExpense demoState "dinner" 90 .EQUAL [1, 2, 3] [] "t").2.expenses

/-- The expense-identity invariant maintained by the ledger: the counter is
positive, every stored expense's id is positive and below the counter, and
ids are strictly increasing in insertion order (hence unique). -/
def LedgerInv (st : ManagerState) : Prop :=
  0 < st.nextExpenseId ∧
  (∀ e ∈ st.expenses, 0 < e.id ∧ e.id < st.nextExpenseId) ∧
  st.expenses.Pairwise (fun e1 e2 => e1.id < e2.id)

/-- A single-user state with an empty ledger, for the identity-gap run. -/
def c7State : ManagerState :=
  { users := [demoUser 1 "a"], expenses := [], currentUser := some 1,
    nextUserId := 2, nextExpenseId := 1 }

/-- A failing creation attempt: EXACT split with no weights supplied, so the
share-count check fails — after the id counter was already incremented. -/
def c7Fail : Option AddError × ManagerState :=
  addExpense c7State "lunch" 100 .EXACT [1] [] "t"

/-- The first successful creation of the run, right after the failed one. -/
def c7Succ : Option AddError × ManagerState :=
  addExpense c7Fail.2 "taxi" 90 .EQUAL [1] [] "t"

/-- Reading any key after `balance[k] += v`: the entry for `k` grows by `v`,
every other entry is unchanged (an absent entry counts as zero). -/
theorem mapGet_mapAdd (m : List (Int × ℚ)) (k : Int) (v : ℚ) (q : Int) :
    mapGet (mapAdd m k v) q = mapGet m q + if q = k then v else 0 := by
  induction m with
  | nil =>
      by_cases h : q = k <;> simp [mapAdd, mapGet, h]
  | cons hd tl ih =>
      obtain ⟨k', v'⟩ := hd
      by_cases hk : k = k'
      · subst hk
        by_cases hq : q = k <;> simp [mapAdd, mapGet, hq]
      · by_cases hq : q = k'
        · have h1 : q ≠ k := by omega
          have h2 : ¬k' = k := fun h => hk h.symm
          simp [mapAdd, mapGet, hk, hq, h1, h2]
        · simp [mapAdd, mapGet, hk, hq, ih]

/-- One inner-loop iteration of the balance computation changes the entry of
`q` by exactly the spec's per-share contribution. -/
theorem mapGet_balanceStep (focal payer q : Int) (m : List (Int × ℚ))
    (p : ExpenseParticipant) :
    mapGet (balanceStep focal payer m p) q =
      mapGet m q + shareContribution focal q payer p := by
  obtain ⟨pu, s⟩ := p
  simp only [balanceStep, shareContribution]
  split_ifs with h1 h2 h3 h4 h5 h6 h7 h8 <;>
    simp_all [mapGet_mapAdd] <;> omega

/-- Folding one expense's participants accumulates the sum of their
contributions on top of the incoming map. -/
theorem mapGet_foldl_balanceStep (focal payer q : Int)
    (ps : List ExpenseParticipant) :
    ∀ m : List (Int × ℚ),
      mapGet (ps.foldl (balanceStep focal payer) m) q =
        mapGet m q + (ps.map (shareContribution focal q payer)).sum := by
  induction ps with
  | nil => intro m; simp
  | cons p ps ih =>
      intro m
      simp only [List.foldl_cons, List.map_cons, List.sum_cons, ih,
        mapGet_balanceStep]
      ring

/-- Refinement of the balance computation against the spec's algorithm: the
entry of `q` in `computeBalance` is the accumulated sum of the per-share
contributions over all expenses. -/
theorem mapGet_computeBalance (es : List Expense) (focal q : Int) :
    mapGet (computeBalance es focal) q = specBalance es focal q := by
  suffices h : ∀ m : List (Int × ℚ),
      mapGet (es.foldl (balanceExpense focal) m) q =
        mapGet m q + specBalance es focal q by
    simpa [computeBalance, mapGet] using h []
  induction es with
  | nil => intro m; simp [specBalance]
  | cons e es ih =>
      intro m
      simp only [List.foldl_cons, specBalance, List.map_cons, List.sum_cons, ih,
        balanceExpense, mapGet_foldl_balanceStep]
      ring

/-- A single share contributes to `y`'s entry in `x`'s balance exactly the
negation of what it contributes to `x`'s entry in `y`'s balance. -/
theorem shareContribution_antisymm (x y payer : Int)
    (p : ExpenseParticipant) (hxy : x ≠ y) :
    shareContribution x y payer p = -shareContribution y x payer p := by
  obtain ⟨pu, s⟩ := p
  simp only [shareContribution]
  split_ifs <;> simp_all

/-- Sign-mirror symmetry of the spec-level balance. -/
theorem specBalance_antisymm (es : List Expense) (x y : Int) (hxy : x ≠ y) :
    specBalance es x y = -specBalance es y x := by
  induction es with
  | nil => simp [specBalance]
  | cons e es ih =>
      simp only [specBalance, List.map_cons, List.sum_cons] at *
      rw [ih]
      have hmap : e.participants.map (shareContribution x y e.createdBy) =
          e.participants.map (fun p => -shareContribution y x e.createdBy p) :=
        List.map_congr_left
          (fun p _ => shareContribution_antisymm x y e.createdBy p hxy)
      rw [hmap]
      have hsum : (e.participants.map
            (fun p => -shareContribution y x e.createdBy p)).sum =
          -(e.participants.map (shareContribution y x e.createdBy)).sum := by
        induction e.participants with
        | nil => simp
        | cons a l ihl => simp_all; ring
      rw [hsum]
      ring


theorem addExpense_reduce (st : ManagerState) (d : String) (a : ℚ)
    (method : SplitMethod) (pids : List Int) (ws : List ℚ) (now : String)
    (cu : Int) (hcu : st.currentUser = some cu) (ha : 0 < a)
    (hex : firstUnknown st.users (includeCreator pids cu) = none) :
    addExpense st d a method pids ws now =
      match splitShares a method (includeCreator pids cu) ws with
      | .error e => (some e, { st with nextExpenseId := st.nextExpenseId + 1 })
      | .ok ps =>
          (none,
            { st with
              expenses := st.expenses ++
                [⟨st.nextExpenseId, d, a, method, cu, now, ps⟩],
              nextExpenseId := st.nextExpenseId + 1 }) := by
  cases hsp : splitShares a method (includeCreator pids cu) ws <;>
    simp [addExpense, hcu, hex, hsp, not_le.mpr ha]

theorem splitShares_equal (a : ℚ) (pids : List Int) (ws : List ℚ) :
    splitShares a .EQUAL pids ws = .ok (equalShares a pids) := rfl

theorem splitShares_exact_count (a : ℚ) (pids : List Int) (ws : List ℚ)
    (h : ws.length ≠ pids.length) :
    splitShares a .EXACT pids ws = .error .ShareCountMismatch := by
  simp [splitShares, h]

theorem splitShares_exact_sum (a : ℚ) (pids : List Int) (ws : List ℚ)
    (h : ws.length = pids.length) (hs : |ws.sum - a| > 1 / 100) :
    splitShares a .EXACT pids ws = .error .ShareSumMismatch := by
  have h' : ¬ws.length ≠ pids.length := by simp [h]
  simp only [splitShares, if_neg h', if_pos hs]

theorem splitShares_exact_ok (a : ℚ) (pids : List Int) (ws : List ℚ)
    (h : ws.length = pids.length) (hs : ¬|ws.sum - a| > 1 / 100) :
    splitShares a .EXACT pids ws = .ok (exactShares pids ws) := by
  have h' : ¬ws.length ≠ pids.length := by simp [h]
  simp only [splitShares, if_neg h', if_neg hs]

theorem exactShares_userIds (pids : List Int) (ws : List ℚ)
    (h : ws.length = pids.length) :
    (exactShares pids ws).map ExpenseParticipant.userId = pids := by
  simp only [exactShares, List.map_map]
  have : (ExpenseParticipant.userId ∘ fun pr : Int × ℚ => (⟨pr.1, pr.2⟩ : ExpenseParticipant)) =
      Prod.fst := rfl
  rw [this]
  exact List.map_fst_zip pids ws (le_of_eq h.symm)

theorem exactShares_shares (pids : List Int) (ws : List ℚ)
    (h : ws.length = pids.length) :
    (exactShares pids ws).map ExpenseParticipant.share = ws := by
  simp only [exactShares, List.map_map]
  have : (ExpenseParticipant.share ∘ fun pr : Int × ℚ => (⟨pr.1, pr.2⟩ : ExpenseParticipant)) =
      Prod.snd := rfl
  rw [this]
  exact List.map_snd_zip pids ws (le_of_eq h)


theorem splitShares_percentage_count (a : ℚ) (pids : List Int) (ws : List ℚ)
    (h : ws.length ≠ pids.length) :
    splitShares a .PERCENTAGE pids ws = .error .ShareCountMismatch := by
  simp [splitShares, h]

theorem splitShares_percentage_sum (a : ℚ) (pids : List Int) (ws : List ℚ)
    (h : ws.length = pids.length) (hs : |ws.sum - 100| > 1 / 100) :
    splitShares a .PERCENTAGE pids ws = .error .PercentageSumMismatch := by
  have h' : ¬ws.length ≠ pids.length := by simp [h]
  simp only [splitShares, if_neg h', if_pos hs]

theorem splitShares_percentage_ok (a : ℚ) (pids : List Int) (ws : List ℚ)
    (h : ws.length = pids.length) (hs : ¬|ws.sum - 100| > 1 / 100) :
    splitShares a .PERCENTAGE pids ws = .ok (percentageShares a pids ws) := by
  have h' : ¬ws.length ≠ pids.length := by simp [h]
  simp only [splitShares, if_neg h', if_neg hs]

theorem percentageShares_userIds (a : ℚ) (pids : List Int) (ws : List ℚ)
    (h : ws.length = pids.length) :
    (percentageShares a pids ws).map ExpenseParticipant.userId = pids := by
  simp only [percentageShares, List.map_map]
  have hc : (ExpenseParticipant.userId ∘
      fun pr : Int × ℚ => (⟨pr.1, a * (pr.2 / 100)⟩ : ExpenseParticipant)) =
      Prod.fst := rfl
  rw [hc]
  exact List.map_fst_zip pids ws (le_of_eq h.symm)

theorem percentageShares_shares (a : ℚ) (pids : List Int) (ws : List ℚ)
    (h : ws.length = pids.length) :
    (percentageShares a pids ws).map ExpenseParticipant.share =
      ws.map (fun w => a * (w / 100)) := by
  simp only [percentageShares, List.map_map]
  have hc : (ExpenseParticipant.share ∘
      fun pr : Int × ℚ => (⟨pr.1, a * (pr.2 / 100)⟩ : ExpenseParticipant)) =
      (fun w => a * (w / 100)) ∘ Prod.snd := rfl
  rw [hc, ← List.map_map]
  rw [List.map_snd_zip pids ws (le_of_eq h)]

theorem equalShares_userIds (a : ℚ) (pids : List Int) :
    (equalShares a pids).map ExpenseParticipant.userId = pids := by
  simp [equalShares, List.map_map]
  exact List.map_id pids

theorem mem_includeCreator (pids : List Int) (cu : Int) :
    cu ∈ includeCreator pids cu := by
  unfold includeCreator
  split_ifs with h
  · exact h
  · simp

theorem includeCreator_of_mem (pids : List Int) (cu : Int) (h : cu ∈ pids) :
    includeCreator pids cu = pids := by
  simp [includeCreator, h]

theorem includeCreator_of_not_mem (pids : List Int) (cu : Int) (h : cu ∉ pids) :
    includeCreator pids cu = pids ++ [cu] := by
  simp [includeCreator, h]

theorem splitShares_ok_userIds (a : ℚ) (method : SplitMethod) (pids : List Int)
    (ws : List ℚ) (ps : List ExpenseParticipant)
    (h : splitShares a method pids ws = .ok ps) :
    ps.map ExpenseParticipant.userId = pids := by
  cases method with
  | EQUAL =>
      rw [splitShares_equal] at h
      cases h
      exact equalShares_userIds a pids
  | EXACT =>
      by_cases hl : ws.length = pids.length
      · by_cases hs : |ws.sum - a| > 1 / 100
        · rw [splitShares_exact_sum a pids ws hl hs] at h; cases h
        · rw [splitShares_exact_ok a pids ws hl hs] at h
          cases h
          exact exactShares_userIds pids ws hl
      · rw [splitShares_exact_count a pids ws hl] at h; cases h
  | PERCENTAGE =>
      by_cases hl : ws.length = pids.length
      · by_cases hs : |ws.sum - 100| > 1 / 100
        · rw [splitShares_percentage_sum a pids ws hl hs] at h; cases h
        · rw [splitShares_percentage_ok a pids ws hl hs] at h
          cases h
          exact percentageShares_userIds a pids ws hl
      · rw [splitShares_percentage_count a pids ws hl] at h; cases h


theorem splitShares_error_cases (a : ℚ) (method : SplitMethod)
    (pids : List Int) (ws : List ℚ) (e : AddError)
    (h : splitShares a method pids ws = .error e) :
    e = .ShareCountMismatch ∨ e = .ShareSumMismatch ∨
      e = .PercentageSumMismatch := by
  cases method <;> simp only [splitShares] at h
  · cases h
  · split_ifs at h <;> cases h <;> simp
  · split_ifs at h <;> cases h <;> simp

theorem addExpense_error_state (st : ManagerState) (d : String) (a : ℚ)
    (method : SplitMethod) (pids : List Int) (ws : List ℚ) (now : String)
    (err : AddError)
    (h : (addExpense st d a method pids ws now).1 = some err) :
    (addExpense st d a method pids ws now).2.expenses = st.expenses ∧
    (addExpense st d a method pids ws now).2.users = st.users ∧
    ((addExpense st d a method pids ws now).2 = st ∨
      (addExpense st d a method pids ws now).2 =
        { st with nextExpenseId := st.nextExpenseId + 1 }) := by
  unfold addExpense at h ⊢
  cases hcu : st.currentUser with
  | none => simp [hcu]
  | some cu =>
      by_cases ha : a ≤ 0
      · simp [hcu, ha]
      · simp only [hcu, if_neg ha] at h ⊢
        cases hfu : firstUnknown st.users (includeCreator pids cu) with
        | some b => simp [hfu]
        | none =>
            simp only [hfu] at h ⊢
            cases hsp : splitShares a method (includeCreator pids cu) ws with
            | error e => simp [hsp]
            | ok ps => simp [hsp] at h

theorem addExpense_success_state (st : ManagerState) (d : String) (a : ℚ)
    (method : SplitMethod) (pids : List Int) (ws : List ℚ) (now : String)
    (h : (addExpense st d a method pids ws now).1 = none) :
    ∃ cu ps, st.currentUser = some cu ∧ 0 < a ∧
      firstUnknown st.users (includeCreator pids cu) = none ∧
      splitShares a method (includeCreator pids cu) ws = .ok ps ∧
      (addExpense st d a method pids ws now).2 =
        { st with
          expenses := st.expenses ++
            [⟨st.nextExpenseId, d, a, method, cu, now, ps⟩],
          nextExpenseId := st.nextExpenseId + 1 } := by
  unfold addExpense at h ⊢
  cases hcu : st.currentUser with
  | none => simp [hcu] at h
  | some cu =>
      by_cases ha : a ≤ 0
      · simp [hcu, ha] at h
      · simp only [hcu, if_neg ha] at h ⊢
        cases hfu : firstUnknown st.users (includeCreator pids cu) with
        | some b => simp [hfu] at h
        | none =>
            simp only [hfu] at h ⊢
            cases hsp : splitShares a method (includeCreator pids cu) ws with
            | error e => simp [hsp] at h
            | ok ps =>
                refine ⟨cu, ps, rfl, not_le.mp ha, hfu, hsp, ?_⟩
                simp [hsp]

theorem addExpense_error_kind_state (st : ManagerState) (d : String) (a : ℚ)
    (method : SplitMethod) (pids : List Int) (ws : List ℚ) (now : String)
    (err : AddError)
    (h : (addExpense st d a method pids ws now).1 = some err) :
    ((err = .NotLoggedIn ∨ err = .InvalidAmount ∨
        (∃ i, err = .UnknownParticipant i)) →
      (addExpense st d a method pids ws now).2 = st) ∧
    ((err = .ShareCountMismatch ∨ err = .ShareSumMismatch ∨
        err = .PercentageSumMismatch) →
      (addExpense st d a method pids ws now).2 =
        { st with nextExpenseId := st.nextExpenseId + 1 }) := by
  unfold addExpense at h
  cases hcu : st.currentUser with
  | none =>
      simp only [hcu] at h
      cases h
      constructor
      · intro _
        simp [addExpense, hcu]
      · rintro (hk | hk | hk) <;> cases hk
  | some cu =>
      by_cases ha : a ≤ 0
      · simp only [hcu, if_pos ha] at h
        cases h
        constructor
        · intro _
          simp [addExpense, hcu, ha]
        · rintro (hk | hk | hk) <;> cases hk
      · simp only [hcu, if_neg ha] at h
        cases hfu : firstUnknown st.users (includeCreator pids cu) with
        | some b =>
            simp only [hfu] at h
            cases h
            constructor
            · intro _
              simp [addExpense, hcu, ha, hfu]
            · rintro (hk | hk | hk) <;> cases hk
        | none =>
            simp only [hfu] at h
            cases hsp : splitShares a method (includeCreator pids cu) ws with
            | error eE =>
                simp only [hsp] at h
                cases h
                have he := splitShares_error_cases a method
                  (includeCreator pids cu) ws _ hsp
                constructor
                · rintro (hk | hk | ⟨i, hk⟩) <;>
                    rcases he with h' | h' | h' <;> simp_all
                · intro _
                  simp [addExpense, hcu, ha, hfu, hsp]
            | ok ps => simp [hsp] at h


/-- C1: `computeBalance` implements the spec's counterparty-mapping
algorithm: every entry equals the accumulated (never overwritten) sum of the
per-share contributions over all expenses — `+share` to the participant's
entry when the focal user is the payer, `-share` to the payer's entry when
the focal user is the participant, nothing otherwise.  On the concrete
ledger where user 1 pays 90 split EQUAL among [1, 2, 3], focal user 2's
balance map is exactly the entry list [(1, -30)] and focal user 1's is
exactly [(2, +30), (3, +30)]. -/
theorem computeBalance_correct :
    (∀ (es : List Expense) (focal q : Int),
        mapGet (computeBalance es focal) q = specBalance es focal q) ∧
    computeBalance demoLedger 2 = [(1, -30)] ∧
    computeBalance demoLedger 1 = [(2, 30), (3, 30)] := by
  refine ⟨mapGet_computeBalance, ?_, ?_⟩ <;>
    norm_num [computeBalance, demoLedger, demoState, demoUser, addExpense,
      includeCreator, firstUnknown, userExists, splitShares, equalShares,
      balanceExpense, balanceStep, mapAdd]

/-- C5: for every ledger and distinct users `x` and `y`, the entry for `y`
in `x`'s balance is the negation of the entry for `x` in `y`'s balance,
absent entries counting as zero. -/
theorem computeBalance_symm (es : List Expense) (x y : Int) (hxy : x ≠ y) :
    mapGet (computeBalance es x) y = -mapGet (computeBalance es y) x := by
  rw [mapGet_computeBalance, mapGet_computeBalance]
  exact specBalance_antisymm es x y hxy

/-- Witness for C5 on the concrete demo ledger. -/
theorem computeBalance_symm_witness :
    (1 : Int) ≠ 2 ∧
    mapGet (computeBalance demoLedger 1) 2 =
      -mapGet (computeBalance demoLedger 2) 1 :=
  ⟨by decide, computeBalance_symm demoLedger 1 2 (by decide)⟩

/-- C2: a successful EQUAL-split creation stores one share per participant
of the creator-inclusive list, in input order, each equal to
`amount / N` with `N` the participant count — no rounding redistribution. -/
theorem addExpense_equal_split (st : ManagerState) (d : String) (a : ℚ)
    (pids : List Int) (ws : List ℚ) (now : String) (cu : Int)
    (hcu : st.currentUser = some cu) (ha : 0 < a)
    (hex : firstUnknown st.users (includeCreator pids cu) = none) :
    (addExpense st d a .EQUAL pids ws now).1 = none ∧
    ∃ e : Expense,
      (addExpense st d a .EQUAL pids ws now).2.expenses = st.expenses ++ [e] ∧
      e.participants.length = (includeCreator pids cu).length ∧
      e.participants.map ExpenseParticipant.userId = includeCreator pids cu ∧
      ∀ p ∈ e.participants,
        p.share = a / ((includeCreator pids cu).length : ℚ) := by
  have hred := addExpense_reduce st d a .EQUAL pids ws now cu hcu ha hex
  simp only [splitShares_equal] at hred
  rw [hred]
  refine ⟨rfl, ⟨_, rfl, ?_, equalShares_userIds a _, ?_⟩⟩
  · simp [equalShares]
  · intro p hp
    simp only [equalShares, List.mem_map] at hp
    obtain ⟨uid, _, hpe⟩ := hp
    rw [← hpe]

/-- C10: the creator-inclusive participant list that `addExpense` feeds to
the EQUAL share computation is never empty — even for an empty input list —
so the divisor `pids.length` of the share computation is nonzero. -/
theorem includeCreator_no_div_by_zero (pids : List Int) (cu : Int) :
    includeCreator pids cu ≠ [] ∧ 0 < (includeCreator pids cu).length ∧
    ((includeCreator pids cu).length : ℚ) ≠ 0 := by
  have hm := mem_includeCreator pids cu
  have hne : includeCreator pids cu ≠ [] := List.ne_nil_of_mem hm
  have hl : 0 < (includeCreator pids cu).length := List.length_pos.mpr hne
  exact ⟨hne, hl, Nat.cast_ne_zero.mpr (Nat.pos_iff_ne_zero.mp hl)⟩


/-- Witness for C2: the concrete EQUAL creation succeeds. -/
theorem addExpense_equal_split_witness :
    (addExpense demoState "dinner" 90 .EQUAL [1, 2, 3] [] "t").1 = none :=
  (addExpense_equal_split demoState "dinner" 90 [1, 2, 3] [] "t" 1 rfl
    (by norm_num) (by decide)).1

/-- C3: for an EXACT-split creation (guards passed): a weight-count
mismatch fails with ShareCountMismatch; with matching counts it fails with
ShareSumMismatch iff `|Σweights − amount| > 0.01`; and on success the stored
shares are exactly the weights, positionally aligned. -/
theorem addExpense_exact_split (st : ManagerState) (d : String) (a : ℚ)
    (pids : List Int) (ws : List ℚ) (now : String) (cu : Int)
    (hcu : st.currentUser = some cu) (ha : 0 < a)
    (hex : firstUnknown st.users (includeCreator pids cu) = none) :
    (ws.length ≠ (includeCreator pids cu).length →
      (addExpense st d a .EXACT pids ws now).1 = some .ShareCountMismatch) ∧
    (ws.length = (includeCreator pids cu).length →
      ((addExpense st d a .EXACT pids ws now).1 = some .ShareSumMismatch ↔
        |ws.sum - a| > 1 / 100) ∧
      (¬|ws.sum - a| > 1 / 100 →
        (addExpense st d a .EXACT pids ws now).1 = none ∧
        ∃ e : Expense,
          (addExpense st d a .EXACT pids ws now).2.expenses =
            st.expenses ++ [e] ∧
          e.participants = exactShares (includeCreator pids cu) ws ∧
          e.participants.map ExpenseParticipant.userId =
            includeCreator pids cu ∧
          e.participants.map ExpenseParticipant.share = ws)) := by
  have hred := addExpense_reduce st d a .EXACT pids ws now cu hcu ha hex
  constructor
  · intro hl
    rw [splitShares_exact_count a _ ws hl] at hred
    simp only [hred]
  · intro hl
    refine ⟨⟨?_, ?_⟩, ?_⟩
    · intro hr
      by_contra hs
      rw [splitShares_exact_ok a _ ws hl hs] at hred
      simp only [hred] at hr
      cases hr
    · intro hs
      rw [splitShares_exact_sum a _ ws hl hs] at hred
      simp only [hred]
    · intro hs
      rw [splitShares_exact_ok a _ ws hl hs] at hred
      rw [hred]
      exact ⟨rfl, _, rfl, rfl, exactShares_userIds _ ws hl,
        exactShares_shares _ ws hl⟩

/-- Witness for C3: the concrete EXACT creation with weights summing to
the amount succeeds. -/
theorem addExpense_exact_split_witness :
    (addExpense demoState "trip" 100 .EXACT [1, 2] [60, 40] "t").1 = none :=
  (((addExpense_exact_split demoState "trip" 100 [1, 2] [60, 40] "t" 1 rfl
      (by norm_num) (by decide)).2 (by decide)).2
      (by norm_num [List.sum_cons, List.sum_nil])).1

/-- C4: for a PERCENTAGE-split creation (guards passed): a weight-count
mismatch fails with ShareCountMismatch; with matching counts it fails with
PercentageSumMismatch iff `|Σweights − 100| > 0.01`; and on success each
stored share is `amount * (weight / 100)`, positionally aligned. -/
theorem addExpense_percentage_split (st : ManagerState) (d : String) (a : ℚ)
    (pids : List Int) (ws : List ℚ) (now : String) (cu : Int)
    (hcu : st.currentUser = some cu) (ha : 0 < a)
    (hex : firstUnknown st.users (includeCreator pids cu) = none) :
    (ws.length ≠ (includeCreator pids cu).length →
      (addExpense st d a .PERCENTAGE pids ws now).1 =
        some .ShareCountMismatch) ∧
    (ws.length = (includeCreator pids cu).length →
      ((addExpense st d a .PERCENTAGE pids ws now).1 =
          some .PercentageSumMismatch ↔ |ws.sum - 100| > 1 / 100) ∧
      (¬|ws.sum - 100| > 1 / 100 →
        (addExpense st d a .PERCENTAGE pids ws now).1 = none ∧
        ∃ e : Expense,
          (addExpense st d a .PERCENTAGE pids ws now).2.expenses =
            st.expenses ++ [e] ∧
          e.participants = percentageShares a (includeCreator pids cu) ws ∧
          e.participants.map ExpenseParticipant.userId =
            includeCreator pids cu ∧
          e.participants.map ExpenseParticipant.share =
            ws.map (fun w => a * (w / 100)))) := by
  have hred := addExpense_reduce st d a .PERCENTAGE pids ws now cu hcu ha hex
  constructor
  · intro hl
    rw [splitShares_percentage_count a _ ws hl] at hred
    simp only [hred]
  · intro hl
    refine ⟨⟨?_, ?_⟩, ?_⟩
    · intro hr
      by_contra hs
      rw [splitShares_percentage_ok a _ ws hl hs] at hred
      simp only [hred] at hr
      cases hr
    · intro hs
      rw [splitShares_percentage_sum a _ ws hl hs] at hred
      simp only [hred]
    · intro hs
      rw [splitShares_percentage_ok a _ ws hl hs] at hred
      rw [hred]
      exact ⟨rfl, _, rfl, rfl, percentageShares_userIds a _ ws hl,
        percentageShares_shares a _ ws hl⟩

/-- Witness for C4: the concrete PERCENTAGE creation with weights summing
to 100 succeeds. -/
theorem addExpense_percentage_split_witness :
    (addExpense demoState "hotel" 200 .PERCENTAGE [1, 2] [70, 30] "t").1 =
      none :=
  (((addExpense_percentage_split demoState "hotel" 200 [1, 2] [70, 30] "t" 1
      rfl (by norm_num) (by decide)).2 (by decide)).2
      (by norm_num [List.sum_cons, List.sum_nil])).1


/-- C6: every failing `addExpense` call leaves the ledger's expense
sequence exactly as it was. -/
theorem addExpense_failure_preserves_ledger (st : ManagerState) (d : String)
    (a : ℚ) (method : SplitMethod) (pids : List Int) (ws : List ℚ)
    (now : String) (err : AddError)
    (h : (addExpense st d a method pids ws now).1 = some err) :
    (addExpense st d a method pids ws now).2.expenses = st.expenses :=
  (addExpense_error_state st d a method pids ws now err h).1

/-- Witness for C6 on a concrete ShareCountMismatch failure. -/
theorem addExpense_failure_preserves_ledger_witness :
    (addExpense demoState "x" 90 .EXACT [1, 2] [60] "t").2.expenses =
      demoState.expenses :=
  addExpense_failure_preserves_ledger demoState "x" 90 .EXACT [1, 2] [60] "t"
    .ShareCountMismatch (by decide)

/-- C8: every successful creation stores participant ids equal to the
creator-inclusive input list: the creator is present, appended at the end
when absent from the input, and the list is used verbatim — duplicates and
all — when the creator was already present. -/
theorem addExpense_creator_included (st : ManagerState) (d : String) (a : ℚ)
    (method : SplitMethod) (pids : List Int) (ws : List ℚ) (now : String)
    (cu : Int) (hcu : st.currentUser = some cu)
    (h : (addExpense st d a method pids ws now).1 = none) :
    ∃ e : Expense,
      (addExpense st d a method pids ws now).2.expenses =
        st.expenses ++ [e] ∧
      e.participants.map ExpenseParticipant.userId = includeCreator pids cu ∧
      cu ∈ e.participants.map ExpenseParticipant.userId ∧
      (cu ∈ pids → includeCreator pids cu = pids) ∧
      (cu ∉ pids → includeCreator pids cu = pids ++ [cu]) := by
  obtain ⟨cu', ps, hcu', ha, hfu, hsp, hstate⟩ :=
    addExpense_success_state st d a method pids ws now h
  rw [hcu] at hcu'
  obtain rfl : cu = cu' := by injection hcu'
  refine ⟨⟨st.nextExpenseId, d, a, method, cu, now, ps⟩, ?_, ?_, ?_, ?_, ?_⟩
  · rw [hstate]
  · exact splitShares_ok_userIds a method _ ws ps hsp
  · rw [splitShares_ok_userIds a method _ ws ps hsp]
    exact mem_includeCreator pids cu
  · exact includeCreator_of_mem pids cu
  · exact includeCreator_of_not_mem pids cu

/-- Witness for C8: creating with participant list [2, 3] as user 1. -/
theorem addExpense_creator_included_witness :
    ∃ e : Expense,
      (addExpense demoState "dinner" 90 .EQUAL [2, 3] [] "t").2.expenses =
        demoState.expenses ++ [e] ∧
      e.participants.map ExpenseParticipant.userId =
        includeCreator [2, 3] 1 ∧
      (1 : Int) ∈ e.participants.map ExpenseParticipant.userId ∧
      ((1 : Int) ∈ [(2 : Int), 3] → includeCreator [2, 3] 1 = [2, 3]) ∧
      ((1 : Int) ∉ [(2 : Int), 3] →
        includeCreator [2, 3] 1 = [2, 3] ++ [1]) :=
  addExpense_creator_included demoState "dinner" 90 .EQUAL [2, 3] [] "t" 1
    rfl (by decide)

theorem isValidEmail_eq_true_iff (email : String) :
    isValidEmail email = true ↔
      (∃ c ∈ email.data, c = '@') ∧ (∃ c ∈ email.data, c = '.') := by
  simp [isValidEmail]

theorem isValidPhone_eq_true_iff (phone : String) :
    isValidPhone phone = true ↔
      10 ≤ phone.length ∧ ∀ c ∈ phone.data, c.isDigit = true := by
  simp [isValidPhone]

/-- C9: registration fails with InvalidEmail exactly when the email does
not contain both an `@` and a `.`; with a valid email it fails with
InvalidPhone exactly when the phone is shorter than 10 characters or has a
non-digit; with both valid it fails with DuplicateEmail exactly when an
existing user has the identical (case-sensitive) email; and on success the
new user receives id `nextUserId` and the counter increments. -/
theorem registerUser_spec (st : ManagerState)
    (name email phone password : String) :
    ((registerUser st name email phone password).1 = some .InvalidEmail ↔
      ¬((∃ c ∈ email.data, c = '@') ∧ (∃ c ∈ email.data, c = '.'))) ∧
    (isValidEmail email = true →
      ((registerUser st name email phone password).1 = some .InvalidPhone ↔
        (phone.length < 10 ∨ ∃ c ∈ phone.data, c.isDigit = false))) ∧
    (isValidEmail email = true → isValidPhone phone = true →
      ((registerUser st name email phone password).1 = some .DuplicateEmail ↔
        ∃ u ∈ st.users, u.email = email)) ∧
    ((registerUser st name email phone password).1 = none →
      (registerUser st name email phone password).2.users =
        st.users ++ [⟨st.nextUserId, name, email, phone, password⟩] ∧
      (registerUser st name email phone password).2.nextUserId =
        st.nextUserId + 1) := by
  by_cases he : isValidEmail email = true
  · by_cases hp : isValidPhone phone = true
    · by_cases hd : st.users.any (fun u => u.email == email) = true
      · refine ⟨?_, ?_, ?_, ?_⟩
        · refine iff_of_false (by simp [registerUser, he, hp, hd]) ?_
          exact not_not_intro ((isValidEmail_eq_true_iff email).mp he)
        · intro _
          refine iff_of_false (by simp [registerUser, he, hp, hd]) ?_
          obtain ⟨hlen, hdig⟩ := (isValidPhone_eq_true_iff phone).mp hp
          push_neg
          refine ⟨by omega, ?_⟩
          intro c hc
          simp [hdig c hc]
        · intro _ _
          refine iff_of_true (by simp [registerUser, he, hp, hd]) ?_
          simpa [List.any_eq_true] using hd
        · intro hnone
          simp [registerUser, he, hp, hd] at hnone
      · refine ⟨?_, ?_, ?_, ?_⟩
        · refine iff_of_false (by simp [registerUser, he, hp, hd]) ?_
          exact not_not_intro ((isValidEmail_eq_true_iff email).mp he)
        · intro _
          refine iff_of_false (by simp [registerUser, he, hp, hd]) ?_
          obtain ⟨hlen, hdig⟩ := (isValidPhone_eq_true_iff phone).mp hp
          push_neg
          refine ⟨by omega, ?_⟩
          intro c hc
          simp [hdig c hc]
        · intro _ _
          refine iff_of_false (by simp [registerUser, he, hp, hd]) ?_
          intro ⟨u, hu, hue⟩
          exact hd (List.any_eq_true.mpr ⟨u, hu, by simp [hue]⟩)
        · intro _
          constructor <;> simp [registerUser, he, hp, hd]
    · refine ⟨?_, ?_, ?_, ?_⟩
      · refine iff_of_false (by simp [registerUser, he, hp]) ?_
        exact not_not_intro ((isValidEmail_eq_true_iff email).mp he)
      · intro _
        refine iff_of_true (by simp [registerUser, he, hp]) ?_
        have hp' := hp
        rw [isValidPhone_eq_true_iff] at hp'
        push_neg at hp'
        by_cases hlen : 10 ≤ phone.length
        · obtain ⟨c, hc, hcd⟩ := hp' hlen
          exact Or.inr ⟨c, hc, by simpa using hcd⟩
        · exact Or.inl (by omega)
      · intro _ hp'
        exact absurd hp' hp
      · intro hnone
        simp [registerUser, he, hp] at hnone
  · refine ⟨?_, ?_, ?_, ?_⟩
    · refine iff_of_true (by simp [registerUser, he]) ?_
      rw [← isValidEmail_eq_true_iff]
      exact he
    · intro he'
      exact absurd he' he
    · intro he' _
      exact absurd he' he
    · intro hnone
      simp [registerUser, he] at hnone


/-- Witness for C9: registering a duplicate email fails as specified. -/
theorem registerUser_spec_witness :
    (registerUser demoState "z" "a@x.com" "0123456789" "pw").1 =
      some .DuplicateEmail :=
  ((registerUser_spec demoState "z" "a@x.com" "0123456789" "pw").2.2.1
      (by decide) (by decide)).mpr (by decide)

/-- C7 counterexample: from an empty ledger, a failed EXACT attempt
(ShareCountMismatch) still consumes an id, so the first successful
createExpense of the run is assigned identity 2, not 1. -/
theorem addExpense_first_success_id_two :
    c7Fail.1 = some .ShareCountMismatch ∧ c7Fail.2.expenses = [] ∧
    c7Succ.1 = none ∧ c7Succ.2.expenses.map Expense.id = [2] ∧
    c7Succ.2.expenses.map Expense.id ≠ [1] := by decide

/-- C7 (amended): expense ids are positive, unique and strictly
increasing; a successful creation is assigned the current counter value and
increments the counter, but the counter also increments on attempts that
fail share validation (ShareCountMismatch, ShareSumMismatch,
PercentageSumMismatch), while earlier failures leave the state untouched. -/
theorem addExpense_id_counter (st : ManagerState) (d : String) (a : ℚ)
    (method : SplitMethod) (pids : List Int) (ws : List ℚ) (now : String) :
    ((addExpense st d a method pids ws now).1 = none →
      ∃ e : Expense,
        (addExpense st d a method pids ws now).2.expenses =
          st.expenses ++ [e] ∧
        e.id = st.nextExpenseId ∧
        (addExpense st d a method pids ws now).2.nextExpenseId =
          st.nextExpenseId + 1) ∧
    (∀ err, (addExpense st d a method pids ws now).1 = some err →
      (addExpense st d a method pids ws now).2.expenses = st.expenses ∧
      ((err = .ShareCountMismatch ∨ err = .ShareSumMismatch ∨
          err = .PercentageSumMismatch) →
        (addExpense st d a method pids ws now).2.nextExpenseId =
          st.nextExpenseId + 1) ∧
      ((err = .NotLoggedIn ∨ err = .InvalidAmount ∨
          (∃ i, err = .UnknownParticipant i)) →
        (addExpense st d a method pids ws now).2 = st)) ∧
    (LedgerInv st → LedgerInv (addExpense st d a method pids ws now).2) := by
  refine ⟨?_, ?_, ?_⟩
  · intro h
    obtain ⟨cu, ps, hcu, ha, hfu, hsp, hstate⟩ :=
      addExpense_success_state st d a method pids ws now h
    exact ⟨_, by rw [hstate], rfl, by rw [hstate]⟩
  · intro err h
    refine ⟨(addExpense_error_state st d a method pids ws now err h).1,
      ?_, ?_⟩
    · intro hk
      rw [(addExpense_error_kind_state st d a method pids ws now err h).2 hk]
    · exact (addExpense_error_kind_state st d a method pids ws now err h).1
  · intro hinv
    unfold LedgerInv at hinv ⊢
    obtain ⟨h0, hb, hpw⟩ := hinv
    cases hr : (addExpense st d a method pids ws now).1 with
    | none =>
        obtain ⟨cu, ps, hcu, ha, hfu, hsp, hstate⟩ :=
          addExpense_success_state st d a method pids ws now hr
        rw [hstate]
        dsimp only
        refine ⟨by omega, ?_, ?_⟩
        · intro e he
          simp only [List.mem_append, List.mem_singleton] at he
          rcases he with he | rfl
          · have hbe := hb e he
            exact ⟨hbe.1, by omega⟩
          · exact ⟨h0, lt_add_one st.nextExpenseId⟩
        · rw [List.pairwise_append]
          refine ⟨hpw, by simp, ?_⟩
          intro x hx y hy
          simp only [List.mem_singleton] at hy
          subst hy
          exact (hb x hx).2
    | some err =>
        rcases (addExpense_error_state st d a method pids ws now err hr).2.2
          with hst | hst <;> rw [hst]
        · exact ⟨h0, hb, hpw⟩
        · dsimp only
          exact ⟨by omega,
            fun e he => ⟨(hb e he).1, by have := (hb e he).2; omega⟩, hpw⟩

/-- Witness for C7 (amended): invariant preservation on a concrete
creation. -/
theorem addExpense_id_counter_witness :
    LedgerInv demoState ∧
    LedgerInv (addExpense demoState "dinner" 90 .EQUAL [1, 2, 3] [] "t").2 :=
  have hinv : LedgerInv demoState :=
    ⟨by norm_num [demoState], by simp [demoState, LedgerInv],
      by simp [demoState, LedgerInv]⟩
  ⟨hinv,
    (addExpense_id_counter demoState "dinner" 90 .EQUAL [1, 2, 3] [] "t").2.2
      hinv⟩

end ExpenseApp
